import Mathlib

/-!
Verification of the event authorization and scope-resolution layer of the
tsuru API (`api/event.go`).

The file shallowly embeds the per-target-kind permission checkers
(`evtPermMap` and the ten `*PermChecker` types), the listing-filter builder
(`filterForPerms`) and the `eventInfo` / `eventCancel` handlers.  External
collaborators (the permission model, the resource stores, the event store,
the provisioner) are modelled as a record of functions (`World`), matching
the interfaces the Go code consumes: `permission.ContextsForPermission`,
`permission.Check`, `app.List`, `auth.GetTeam`, and so on.  Fallible Go
calls returning `(T, error)` become `Except String T`; Go nil slices of
strings are `Option (List String)` (`none` is the nil slice, which for
`event.TargetFilter.Values` means "no value restriction").
-/

/-- The ten event target kinds (`event.TargetType`). -/
inductive TargetType
  | app
  | team
  | service
  | serviceInstance
  | pool
  | user
  | container
  | node
  | iaas
  | role
  deriving DecidableEq

/-- Permission context kinds (`permission.CtxGlobal`, `CtxTeam`, ...). -/
inductive CtxType
  | global
  | team
  | pool
  | app
  | service
  | serviceInstance
  | iaas
  | user
  | role
  deriving DecidableEq

/-- The permission schemes this file consults (`permission.PermAppReadEvents`, ...). -/
inductive Scheme
  | appReadEvents
  | appUpdateEvents
  | teamReadEvents
  | teamUpdateEvents
  | serviceReadEvents
  | serviceUpdateEvents
  | serviceInstanceReadEvents
  | serviceInstanceUpdateEvents
  | poolReadEvents
  | poolUpdateEvents
  | userReadEvents
  | userUpdateEvents
  | machineReadEvents
  | machineUpdateEvents
  | roleReadEvents
  | roleUpdateEvents
  deriving DecidableEq

/-- `checkKind` from the source (`readCheckKind` / `updateCheckKind`). -/
inductive CheckKind
  | read
  | update
  deriving DecidableEq

/-- `permission.PermissionContext`: a context kind plus identifying value. -/
structure PermissionContext where
  ctxType : CtxType
  value : String
  deriving DecidableEq

/-- `event.TargetFilter`: a target type plus an optional value allow-list.
`values = none` models the Go nil slice (no value restriction). -/
structure TargetFilter where
  ttype : TargetType
  values : Option (List String)
  deriving DecidableEq

/-- `event.Target`. -/
structure Target where
  ttype : TargetType
  value : String
  deriving DecidableEq

/-- The slice of `event.Event` the handlers consult: its target. -/
structure Event where
  target : Target
  deriving DecidableEq

/-- The slice of `event.Filter` the code touches: the allowed-target list,
plus an opaque remainder standing for every other filter field (which
`filterForPerms` leaves untouched). -/
structure EventFilter where
  allowedTargets : List TargetFilter
  other : String
  deriving DecidableEq

/-- `auth.Token` as consumed here: only `GetUserName` is used, plus its role
as a key into the permission model (kept in `World`). -/
structure Token where
  name : String
  deriving DecidableEq

/-- `app.App` as consumed here: name, teams, pool. -/
structure App where
  name : String
  teams : List String
  pool : String
  deriving DecidableEq

/-- `auth.Team` as consumed here. -/
structure Team where
  name : String
  deriving DecidableEq

/-- `service.Service` as consumed here. -/
structure Service where
  name : String
  ownerTeams : List String
  deriving DecidableEq

/-- `service.ServiceInstance` as consumed here. -/
structure ServiceInstance where
  serviceName : String
  name : String
  teams : List String
  deriving DecidableEq

/-- `provision.Pool` as consumed here. -/
structure Pool where
  name : String
  deriving DecidableEq

/-- `provision.Node` as consumed here: address and pool. -/
structure Node where
  address : String
  pool : String
  deriving DecidableEq

/-- `provision.Unit` as consumed here. -/
structure AppUnit where
  id : String
  deriving DecidableEq

/-- `provision.NodeProvisioner`: `ListNodes` takes an optional address
filter (the Go nil slice is modelled as `[]`, meaning list all nodes). -/
structure NodeProvisioner where
  listNodes : List String → Except String (List Node)

/-- The error returned by `Event.TryCancel`: either the sentinel
`event.ErrNotCancelable` or some other error. -/
inductive CancelErr
  | notCancelable
  | otherErr (msg : String)
  deriving DecidableEq

/-- The external collaborators of `api/event.go`, as the record of functions
the handlers and checkers call.  `appList ctxs` stands for
`app.List(appFilterByContext(ctxs, nil))`; `nodeProvisioner = none` models a
provisioner that does not implement `provision.NodeProvisioner`. -/
structure World where
  contextsForPermission : Token → Scheme → List PermissionContext
  permCheck : Token → Scheme → List PermissionContext → Bool
  appList : List PermissionContext → Except String (List App)
  getAppFromContext : String → Except String App
  getTeam : String → Except String Team
  readableServices : Token → List PermissionContext → Except String (List Service)
  getService : String → Except String Service
  readableInstances : Token → List PermissionContext → Except String (List ServiceInstance)
  getServiceInstanceOrError : String → String → Except String ServiceInstance
  getPoolByName : String → Except String Pool
  getAppFromUnitID : String → Except String App
  units : App → Except String (List AppUnit)
  nodeProvisioner : Option NodeProvisioner
  getByID : String → Except String Event
  tryCancel : Event → String → String → Option CancelErr

/-- Go `append` on a possibly-nil string slice. -/
def pushVal : Option (List String) → String → Option (List String)
  | none, v => some [v]
  | some l, v => some (l ++ [v])

/-- `permission.Contexts(ty, values)`. -/
def ctxList (ty : CtxType) (vals : List String) : List PermissionContext :=
  vals.map (fun v => ⟨ty, v⟩)

/-- The shared loop of the direct-context filters (team, pool, iaas): walk
the contexts; a Global context sets the values to nil and breaks; a context
of the matching kind appends its value. -/
def collectVals (ty : CtxType) : List PermissionContext → Option (List String) → Option (List String)
  | [], acc => acc
  | c :: rest, acc =>
    if c.ctxType = CtxType.global then none
    else if c.ctxType = ty then collectVals ty rest (pushVal acc c.value)
    else collectVals ty rest acc

/-- The loop of the role and user filters: only a Global context changes the
values (to nil), nothing is ever appended. -/
def wipeOnGlobal : List PermissionContext → Option (List String) → Option (List String)
  | [], acc => acc
  | c :: rest, acc =>
    if c.ctxType = CtxType.global then none
    else wipeOnGlobal rest acc

/-- `strings.SplitN(s, sep, 2)` at the character level: split at the first
`'/'`; `none` means no separator present. -/
def splitN2Chars : List Char → Option (List Char × List Char)
  | [] => none
  | c :: rest =>
    if c = '/' then some ([], rest)
    else
      match splitN2Chars rest with
      | none => none
      | some (a, b) => some (c :: a, b)

/-- `serviceIntancePermName`: the composite "serviceName/instanceName". -/
def serviceIntancePermName (serviceName name : String) : String :=
  serviceName ++ "/" ++ name

/-- `bson.IsObjectIdHex`: 24 characters, all hexadecimal. -/
def isHexChar (c : Char) : Bool :=
  c.isDigit || (('a' : Char) ≤ c && c ≤ ('f' : Char)) || (('A' : Char) ≤ c && c ≤ ('F' : Char))

/-- `bson.IsObjectIdHex(s)`. -/
def isObjectIdHex (s : String) : Bool :=
  s.length == 24 && s.data.all isHexChar

/-- `appPermChecker.filter`. -/
def appPermChecker.filter (w : World) (t : Token) : Except String (Option TargetFilter) :=
  let contexts := w.contextsForPermission t Scheme.appReadEvents
  if contexts.length = 0 then .ok none
  else
    match w.appList contexts with
    | .error e => .error e
    | .ok apps =>
      if apps.length = 0 then .ok none
      else .ok (some { ttype := .app, values := apps.foldl (fun acc a => pushVal acc a.name) none })

/-- `appPermChecker.check`. -/
def appPermChecker.check (w : World) (t : Token) (value : String) (kind : CheckKind) : Except String Bool :=
  match w.getAppFromContext value with
  | .error e => .error e
  | .ok a =>
    let s := match kind with
      | .read => Scheme.appReadEvents
      | .update => Scheme.appUpdateEvents
    .ok (w.permCheck t s (ctxList .team a.teams ++ [⟨CtxType.app, a.name⟩, ⟨CtxType.pool, a.pool⟩]))

/-- `teamPermChecker.filter`. -/
def teamPermChecker.filter (w : World) (t : Token) : Except String (Option TargetFilter) :=
  let contexts := w.contextsForPermission t Scheme.teamReadEvents
  if contexts.length = 0 then .ok none
  else .ok (some { ttype := .team, values := collectVals .team contexts none })

/-- `teamPermChecker.check`. -/
def teamPermChecker.check (w : World) (t : Token) (value : String) (kind : CheckKind) : Except String Bool :=
  match w.getTeam value with
  | .error e => .error e
  | .ok tm =>
    let s := match kind with
      | .read => Scheme.teamReadEvents
      | .update => Scheme.teamUpdateEvents
    .ok (w.permCheck t s [⟨CtxType.team, tm.name⟩])

/-- `servicePermChecker.filter`. -/
def servicePermChecker.filter (w : World) (t : Token) : Except String (Option TargetFilter) :=
  let contexts := w.contextsForPermission t Scheme.serviceReadEvents
  if contexts.length = 0 then .ok none
  else
    match w.readableServices t contexts with
    | .error e => .error e
    | .ok services =>
      if services.length = 0 then .ok none
      else .ok (some { ttype := .service, values := services.foldl (fun acc s => pushVal acc s.name) none })

/-- `servicePermChecker.check`. -/
def servicePermChecker.check (w : World) (t : Token) (value : String) (kind : CheckKind) : Except String Bool :=
  match w.getService value with
  | .error e => .error e
  | .ok s =>
    let sch := match kind with
      | .read => Scheme.serviceReadEvents
      | .update => Scheme.serviceUpdateEvents
    .ok (w.permCheck t sch (ctxList .team s.ownerTeams ++ [⟨CtxType.service, s.name⟩]))

/-- `serviceInstancePermChecker.filter`. -/
def serviceInstancePermChecker.filter (w : World) (t : Token) : Except String (Option TargetFilter) :=
  let contexts := w.contextsForPermission t Scheme.serviceInstanceReadEvents
  if contexts.length = 0 then .ok none
  else
    match w.readableInstances t contexts with
    | .error e => .error e
    | .ok instances =>
      if instances.length = 0 then .ok none
      else .ok (some { ttype := .serviceInstance,
                       values := instances.foldl (fun acc s => pushVal acc (serviceIntancePermName s.serviceName s.name)) none })

/-- `serviceInstancePermChecker.check`: splits the composite target value at
the first "/"; with no separator the answer is deny with no store lookup. -/
def serviceInstancePermChecker.check (w : World) (t : Token) (value : String) (kind : CheckKind) : Except String Bool :=
  match splitN2Chars value.data with
  | none => .ok false
  | some (a, b) =>
    match w.getServiceInstanceOrError (String.mk a) (String.mk b) with
    | .error e => .error e
    | .ok si =>
      let sch := match kind with
        | .read => Scheme.serviceInstanceReadEvents
        | .update => Scheme.serviceInstanceUpdateEvents
      .ok (w.permCheck t sch (ctxList .team si.teams ++ [⟨CtxType.serviceInstance, value⟩]))

/-- `poolPermChecker.filter`. -/
def poolPermChecker.filter (w : World) (t : Token) : Except String (Option TargetFilter) :=
  let contexts := w.contextsForPermission t Scheme.poolReadEvents
  if contexts.length = 0 then .ok none
  else .ok (some { ttype := .pool, values := collectVals .pool contexts none })

/-- `poolPermChecker.check`. -/
def poolPermChecker.check (w : World) (t : Token) (value : String) (kind : CheckKind) : Except String Bool :=
  match w.getPoolByName value with
  | .error e => .error e
  | .ok p =>
    let s := match kind with
      | .read => Scheme.poolReadEvents
      | .update => Scheme.poolUpdateEvents
    .ok (w.permCheck t s [⟨CtxType.pool, p.name⟩])

/-- `userPermChecker.filter`: starts from the self-scope (the token's own
user name) and only a Global context lifts the restriction. -/
def userPermChecker.filter (w : World) (t : Token) : Except String (Option TargetFilter) :=
  let contexts := w.contextsForPermission t Scheme.userReadEvents
  if contexts.length = 0 then .ok (some { ttype := .user, values := some [t.name] })
  else .ok (some { ttype := .user, values := wipeOnGlobal contexts (some [t.name]) })

/-- `userPermChecker.check`: requires the scheme at global context. -/
def userPermChecker.check (w : World) (t : Token) (_value : String) (kind : CheckKind) : Except String Bool :=
  let s := match kind with
    | .read => Scheme.userReadEvents
    | .update => Scheme.userUpdateEvents
  .ok (w.permCheck t s [⟨CtxType.global, ""⟩])

/-- `iaasPermChecker.filter`. -/
def iaasPermChecker.filter (w : World) (t : Token) : Except String (Option TargetFilter) :=
  let contexts := w.contextsForPermission t Scheme.machineReadEvents
  if contexts.length = 0 then .ok none
  else .ok (some { ttype := .iaas, values := collectVals .iaas contexts none })

/-- `iaasPermChecker.check`. -/
def iaasPermChecker.check (w : World) (t : Token) (value : String) (kind : CheckKind) : Except String Bool :=
  let s := match kind with
    | .read => Scheme.machineReadEvents
    | .update => Scheme.machineUpdateEvents
  .ok (w.permCheck t s [⟨CtxType.iaas, value⟩])

/-- The per-app unit walk of `containerPermChecker.filter`. -/
def containerLoop (w : World) : List App → Option (List String) → Except String (Option (List String))
  | [], acc => .ok acc
  | a :: rest, acc =>
    match w.units a with
    | .error e => .error e
    | .ok us => containerLoop w rest (us.foldl (fun ac u => pushVal ac u.id) acc)

/-- `containerPermChecker.filter`: the values start from the explicitly
non-nil empty slice and collect every visible app's unit ids. -/
def containerPermChecker.filter (w : World) (t : Token) : Except String (Option TargetFilter) :=
  let contexts := w.contextsForPermission t Scheme.appReadEvents
  if contexts.length = 0 then .ok none
  else
    match w.appList contexts with
    | .error e => .error e
    | .ok apps =>
      if apps.length = 0 then .ok none
      else
        match containerLoop w apps (some []) with
        | .error e => .error e
        | .ok vals => .ok (some { ttype := .container, values := vals })

/-- `containerPermChecker.check`. -/
def containerPermChecker.check (w : World) (t : Token) (value : String) (kind : CheckKind) : Except String Bool :=
  match w.getAppFromUnitID value with
  | .error e => .error e
  | .ok a =>
    let s := match kind with
      | .read => Scheme.appReadEvents
      | .update => Scheme.appUpdateEvents
    .ok (w.permCheck t s (ctxList .team a.teams ++ [⟨CtxType.app, a.name⟩, ⟨CtxType.pool, a.pool⟩]))

/-- The context walk of `nodePermChecker.filter`: Global wipes and breaks; a
Pool context fetches the node list once (only when the provisioner supports
node listing) and appends the addresses of nodes in that pool. -/
def nodeLoop (w : World) : List PermissionContext → Option (List String) → Option (List Node) → Except String (Option (List String))
  | [], acc, _ => .ok acc
  | c :: rest, acc, fetched =>
    if c.ctxType = CtxType.global then .ok none
    else if c.ctxType = CtxType.pool then
      match fetched with
      | some ns =>
        nodeLoop w rest (ns.foldl (fun ac n => if n.pool = c.value then pushVal ac n.address else ac) acc) (some ns)
      | none =>
        match w.nodeProvisioner with
        | none => nodeLoop w rest acc none
        | some np =>
          match np.listNodes [] with
          | .error e => .error e
          | .ok ns =>
            nodeLoop w rest (ns.foldl (fun ac n => if n.pool = c.value then pushVal ac n.address else ac) acc) (some ns)
    else nodeLoop w rest acc fetched

/-- `nodePermChecker.filter`. -/
def nodePermChecker.filter (w : World) (t : Token) : Except String (Option TargetFilter) :=
  let contexts := w.contextsForPermission t Scheme.poolReadEvents
  if contexts.length = 0 then .ok none
  else
    match nodeLoop w contexts none none with
    | .error e => .error e
    | .ok vals => .ok (some { ttype := .node, values := vals })

/-- `nodePermChecker.check`: deny when the provisioner does not support node
listing; otherwise a point lookup of the node yields its pool context. -/
def nodePermChecker.check (w : World) (t : Token) (value : String) (kind : CheckKind) : Except String Bool :=
  match w.nodeProvisioner with
  | none => .ok false
  | some np =>
    match np.listNodes [value] with
    | .error e => .error e
    | .ok ns =>
      let ctx : List PermissionContext := match ns with
        | [] => []
        | n :: _ => [⟨CtxType.pool, n.pool⟩]
      let s := match kind with
        | .read => Scheme.poolReadEvents
        | .update => Scheme.poolUpdateEvents
      .ok (w.permCheck t s ctx)

/-- `rolePermChecker.filter`: only a Global context is ever examined; no
value is ever appended. -/
def rolePermChecker.filter (w : World) (t : Token) : Except String (Option TargetFilter) :=
  let contexts := w.contextsForPermission t Scheme.roleReadEvents
  if contexts.length = 0 then .ok none
  else .ok (some { ttype := .role, values := wipeOnGlobal contexts none })

/-- `rolePermChecker.check`. -/
def rolePermChecker.check (w : World) (t : Token) (_value : String) (kind : CheckKind) : Except String Bool :=
  let s := match kind with
    | .read => Scheme.roleReadEvents
    | .update => Scheme.roleUpdateEvents
  .ok (w.permCheck t s [⟨CtxType.global, ""⟩])

/-- `evtPermMap`, as the (total) dispatch on the closed target-type
enumeration, filter side.  Every one of the ten kinds is registered, so the
nil-checker branches of the handlers are unreachable in this model. -/
def evtPermFilter (w : World) (k : TargetType) (t : Token) : Except String (Option TargetFilter) :=
  match k with
  | .app => appPermChecker.filter w t
  | .team => teamPermChecker.filter w t
  | .service => servicePermChecker.filter w t
  | .serviceInstance => serviceInstancePermChecker.filter w t
  | .pool => poolPermChecker.filter w t
  | .user => userPermChecker.filter w t
  | .container => containerPermChecker.filter w t
  | .node => nodePermChecker.filter w t
  | .iaas => iaasPermChecker.filter w t
  | .role => rolePermChecker.filter w t

/-- `evtPermMap`, check side. -/
def evtPermCheck (w : World) (k : TargetType) (t : Token) (value : String) (kind : CheckKind) : Except String Bool :=
  match k with
  | .app => appPermChecker.check w t value kind
  | .team => teamPermChecker.check w t value kind
  | .service => servicePermChecker.check w t value kind
  | .serviceInstance => serviceInstancePermChecker.check w t value kind
  | .pool => poolPermChecker.check w t value kind
  | .user => userPermChecker.check w t value kind
  | .container => containerPermChecker.check w t value kind
  | .node => nodePermChecker.check w t value kind
  | .iaas => iaasPermChecker.check w t value kind
  | .role => rolePermChecker.check w t value kind

/-- One fixed enumeration of the registry's keys.  The Go map iteration
order is unspecified; the properties proved below do not depend on the
order beyond "some erring plugin's error is returned". -/
def targetTypeOrder : List TargetType :=
  [.app, .team, .service, .serviceInstance, .pool, .user, .container, .node, .iaas, .role]

/-- The collection loop of `filterForPerms` over the registry. -/
def allowedTargetsFor (w : World) (t : Token) : List TargetType → Except String (List TargetFilter)
  | [] => .ok []
  | k :: ks =>
    match evtPermFilter w k t with
    | .error e => .error e
    | .ok none => allowedTargetsFor w t ks
    | .ok (some tf) =>
      match allowedTargetsFor w t ks with
      | .error e => .error e
      | .ok rest => .ok (tf :: rest)

/-- `filterForPerms`: replace the incoming filter's allowed targets (a nil
filter becomes a fresh one) with the permission-derived list, failing on the
first plugin error. -/
def filterForPerms (w : World) (t : Token) (fOpt : Option EventFilter) : Except String EventFilter :=
  let f := fOpt.getD { allowedTargets := [], other := "" }
  match allowedTargetsFor w t targetTypeOrder with
  | .error e => .error e
  | .ok ats => .ok { f with allowedTargets := ats }

/-- The outcome of a handler: a success status written to the response, an
`errors.HTTP` with a status code, or a generic (500-style) error. -/
inductive HandlerResult
  | ok (status : Nat)
  | httpErr (code : Nat) (msg : String)
  | err (msg : String)
  deriving DecidableEq

/-- `permission.ErrUnauthorized`. -/
def errUnauthorized : HandlerResult :=
  .httpErr 401 "You don't have permission to do this action"

/-- `eventInfo`: 400 on a malformed id, 404 when the event store has no such
event, 401 on denial, the event with 200 otherwise. -/
def eventInfo (w : World) (t : Token) (uuid : String) : HandlerResult :=
  if isObjectIdHex uuid = false then
    .httpErr 400 ("uuid parameter is not ObjectId: " ++ uuid)
  else
    match w.getByID uuid with
    | .error e => .httpErr 404 e
    | .ok ev =>
      match evtPermCheck w ev.target.ttype t ev.target.value .read with
      | .error e => .err e
      | .ok false => errUnauthorized
      | .ok true => .ok 200

/-- `eventCancel`: 400 on a malformed id, 404 when absent, 400 on an empty
reason (before any permission check), 401 on denial, then the cancel
transition; `event.ErrNotCancelable` surfaces as 400, success as 204. -/
def eventCancel (w : World) (t : Token) (uuid : String) (reason : String) : HandlerResult :=
  if isObjectIdHex uuid = false then
    .httpErr 400 ("uuid parameter is not ObjectId: " ++ uuid)
  else
    match w.getByID uuid with
    | .error e => .httpErr 404 e
    | .ok ev =>
      if reason = "" then .httpErr 400 "reason is mandatory"
      else
        match evtPermCheck w ev.target.ttype t ev.target.value .update with
        | .error e => .err e
        | .ok false => errUnauthorized
        | .ok true =>
          match w.tryCancel ev reason t.name with
          | some .notCancelable => .httpErr 400 "event is not cancelable"
          | some (.otherErr m) => .err m
          | none => .ok 204

/-- Decidable equality on `Except`, for evaluating the model on concrete
inputs. -/
instance {e a : Type} [DecidableEq e] [DecidableEq a] : DecidableEq (Except e a) := fun x y =>
  match x, y with
  | .error e1, .error e2 =>
    if h : e1 = e2 then .isTrue (by rw [h]) else .isFalse (fun hh => h (Except.error.inj hh))
  | .ok v1, .ok v2 =>
    if h : v1 = v2 then .isTrue (by rw [h]) else .isFalse (fun hh => h (Except.ok.inj hh))
  | .error _, .ok _ => .isFalse (fun hh => Except.noConfusion hh)
  | .ok _, .error _ => .isFalse (fun hh => Except.noConfusion hh)

/-- The scope a registry entry contributed, `none` for absent or (unreached)
error. -/
def okScope (w : World) (t : Token) (k : TargetType) : Option TargetFilter :=
  match evtPermFilter w k t with
  | .ok v => v
  | .error _ => none

/-- A context grants visibility of an app when the app's own scopes match it
(this is what `appFilterByContext` selects by). -/
def CtxMatchApp (c : PermissionContext) (a : App) : Prop :=
  c.ctxType = CtxType.global ∨
    (c.ctxType = CtxType.team ∧ c.value ∈ a.teams) ∨
    (c.ctxType = CtxType.app ∧ c.value = a.name) ∨
    (c.ctxType = CtxType.pool ∧ c.value = a.pool)

/-- A context grants visibility of a service. -/
def CtxMatchService (c : PermissionContext) (s : Service) : Prop :=
  c.ctxType = CtxType.global ∨
    (c.ctxType = CtxType.team ∧ c.value ∈ s.ownerTeams) ∨
    (c.ctxType = CtxType.service ∧ c.value = s.name)

/-- A context grants visibility of a service instance. -/
def CtxMatchInstance (c : PermissionContext) (si : ServiceInstance) : Prop :=
  c.ctxType = CtxType.global ∨
    (c.ctxType = CtxType.team ∧ c.value ∈ si.teams) ∨
    (c.ctxType = CtxType.serviceInstance ∧
      c.value = serviceIntancePermName si.serviceName si.name)

/-- Coherence of the external permission model: `Check` succeeds when one of
the supplied contexts is among the actor's contexts for the scheme, and a
Global grant subsumes every context. -/
structure PermCoherent (w : World) : Prop where
  mem_check : ∀ t s c ctxs, c ∈ w.contextsForPermission t s → c ∈ ctxs →
    w.permCheck t s ctxs = true
  global_check : ∀ t s c ctxs, c ∈ w.contextsForPermission t s →
    c.ctxType = CtxType.global → w.permCheck t s ctxs = true

/-- Consistency of the resource stores with their own listings: a point
lookup of an identity a listing returned resolves to the same entity, and
every listed entity matches one of the contexts the listing was filtered
by. -/
structure StoresConsistent (w : World) : Prop where
  team_ok : ∀ v, w.getTeam v = .ok ⟨v⟩
  pool_ok : ∀ v, w.getPoolByName v = .ok ⟨v⟩
  app_ok : ∀ ctxs apps a, w.appList ctxs = .ok apps → a ∈ apps →
    w.getAppFromContext a.name = .ok a ∧ ∃ c ∈ ctxs, CtxMatchApp c a
  service_ok : ∀ t ctxs ss s, w.readableServices t ctxs = .ok ss → s ∈ ss →
    w.getService s.name = .ok s ∧ ∃ c ∈ ctxs, CtxMatchService c s
  instance_ok : ∀ t ctxs sis si, w.readableInstances t ctxs = .ok sis → si ∈ sis →
    w.getServiceInstanceOrError si.serviceName si.name = .ok si ∧
      ('/' : Char) ∉ si.serviceName.data ∧ ∃ c ∈ ctxs, CtxMatchInstance c si
  unit_ok : ∀ ctxs apps a, w.appList ctxs = .ok apps → a ∈ apps →
    ∀ us u, w.units a = .ok us → u ∈ us → w.getAppFromUnitID u.id = .ok a
  node_ok : ∀ np ns n, w.nodeProvisioner = some np → np.listNodes [] = .ok ns →
    n ∈ ns → np.listNodes [n.address] = .ok [n]

/-- A world with an actor holding no permissions at all: every store lookup
of a listed identity succeeds trivially because nothing is listed. -/
def noPermWorld : World where
  contextsForPermission := fun _ _ => []
  permCheck := fun _ _ _ => false
  appList := fun _ => .ok []
  getAppFromContext := fun _ => .error "app not found"
  getTeam := fun v => .ok ⟨v⟩
  readableServices := fun _ _ => .ok []
  getService := fun _ => .error "service not found"
  readableInstances := fun _ _ => .ok []
  getServiceInstanceOrError := fun _ _ => .error "service instance not found"
  getPoolByName := fun v => .ok ⟨v⟩
  getAppFromUnitID := fun _ => .error "app not found"
  units := fun _ => .ok []
  nodeProvisioner := none
  getByID := fun _ => .error "event not found"
  tryCancel := fun _ _ _ => none

def aliceToken : Token := ⟨"alice"⟩

/-- The contexts of a concrete coherent world: one team context for the
team-read-events scheme. -/
def cohCtxs (s : Scheme) : List PermissionContext :=
  match s with
  | .teamReadEvents => [⟨CtxType.team, "alpha"⟩]
  | _ => []

/-- A concrete world whose permission predicate is coherent with its
contexts and whose stores are consistent. -/
def cohWorld : World where
  contextsForPermission := fun _ s => cohCtxs s
  permCheck := fun _ s ctxs =>
    decide (∃ c ∈ cohCtxs s, c ∈ ctxs ∨ c.ctxType = CtxType.global)
  appList := fun _ => .ok []
  getAppFromContext := fun _ => .error "app not found"
  getTeam := fun v => .ok ⟨v⟩
  readableServices := fun _ _ => .ok []
  getService := fun _ => .error "service not found"
  readableInstances := fun _ _ => .ok []
  getServiceInstanceOrError := fun _ _ => .error "service instance not found"
  getPoolByName := fun v => .ok ⟨v⟩
  getAppFromUnitID := fun _ => .error "app not found"
  units := fun _ => .ok []
  nodeProvisioner := none
  getByID := fun _ => .error "event not found"
  tryCancel := fun _ _ _ => none

def bobToken : Token := ⟨"bob"⟩

/-- The read-events scheme each registered kind's filter consults. -/
def readSchemeOf : TargetType → Scheme
  | .app => .appReadEvents
  | .team => .teamReadEvents
  | .service => .serviceReadEvents
  | .serviceInstance => .serviceInstanceReadEvents
  | .pool => .poolReadEvents
  | .user => .userReadEvents
  | .container => .appReadEvents
  | .node => .poolReadEvents
  | .iaas => .machineReadEvents
  | .role => .roleReadEvents

/-- The context type whose values a direct-context kind collects (only
meaningful for team, pool and iaas). -/
def directCtxType : TargetType → CtxType
  | .team => .team
  | .pool => .pool
  | .iaas => .iaas
  | _ => .global

/-- The values of the actor's contexts whose type matches the kind's own
scope type. -/
def matchingVals (K : TargetType) (ctxs : List PermissionContext) : List String :=
  (ctxs.filter (fun c => decide (c.ctxType = directCtxType K))).map (fun c => c.value)

/-- A world with only a pool context for the pool-read-events scheme and a
provisioner without node-listing support. -/
def poolCtxWorld : World :=
  { noPermWorld with
    contextsForPermission := fun _ s =>
      match s with
      | .poolReadEvents => [⟨CtxType.pool, "p1"⟩]
      | _ => [] }

/-- A world with only a role context for the role-read-events scheme. -/
def roleCtxWorld : World :=
  { noPermWorld with
    contextsForPermission := fun _ s =>
      match s with
      | .roleReadEvents => [⟨CtxType.role, "r1"⟩]
      | _ => [] }

/-- A world with one team context for team-read-events (used as the concrete
instance of the direct-context filter shape). -/
def teamCtxWorld : World :=
  { noPermWorld with
    contextsForPermission := fun _ s =>
      match s with
      | .teamReadEvents => [⟨CtxType.team, "alpha"⟩]
      | _ => [] }

/-- A world with a Global context for app-read-events and an empty app
store. -/
def globalAppWorld : World :=
  { noPermWorld with
    contextsForPermission := fun _ s =>
      match s with
      | .appReadEvents => [⟨CtxType.global, ""⟩]
      | _ => [] }

/-- A world with a Global context for team-read-events. -/
def globalTeamWorld : World :=
  { noPermWorld with
    contextsForPermission := fun _ s =>
      match s with
      | .teamReadEvents => [⟨CtxType.global, ""⟩]
      | _ => [] }

/-- Recognizer of the not-found outcome. -/
def isNotFoundOutcome : HandlerResult → Bool
  | .httpErr 404 _ => true
  | _ => false

def validId : String := "0123456789abcdef01234567"

def storedEvent : Event := ⟨⟨TargetType.team, "alpha"⟩⟩

def eventWorld : World :=
  { noPermWorld with getByID := fun _ => .ok storedEvent }

/-! ### Helper lemmas about the loops -/

theorem foldl_pushVal_some (l : List String) (m : List String) :
    List.foldl pushVal (some m) l = some (m ++ l) := by
  induction l generalizing m with
  | nil => simp
  | cons x xs ih => simp [List.foldl, pushVal, ih]

theorem foldl_pushVal_none_of_ne (l : List String) (h : l ≠ []) :
    List.foldl pushVal none l = some l := by
  cases l with
  | nil => exact absurd rfl h
  | cons x xs => simp [List.foldl, pushVal, foldl_pushVal_some]

theorem foldl_pushVal_mem (names : List String) (acc : Option (List String))
    (vs : List String) (X : String)
    (h : List.foldl pushVal acc names = some vs) (hX : X ∈ vs) :
    (∃ m, acc = some m ∧ X ∈ m) ∨ X ∈ names := by
  cases acc with
  | some m =>
    rw [foldl_pushVal_some] at h
    have hv : vs = m ++ names := by
      exact (Option.some.inj h).symm
    subst hv
    rcases List.mem_append.mp hX with hm | hn
    · exact Or.inl ⟨m, rfl, hm⟩
    · exact Or.inr hn
  | none =>
    cases hn : names with
    | nil =>
      subst hn
      simp [List.foldl] at h
    | cons x xs =>
      have : List.foldl pushVal none names = some names := by
        apply foldl_pushVal_none_of_ne
        simp [hn]
      rw [hn] at this h
      have hv : vs = x :: xs := (Option.some.inj (this ▸ h)).symm
      subst hv
      exact Or.inr (hn ▸ hX)

theorem foldl_push_map {α : Type} (g : α → String) (l : List α) (acc : Option (List String)) :
    l.foldl (fun ac x => pushVal ac (g x)) acc = List.foldl pushVal acc (l.map g) := by
  induction l generalizing acc with
  | nil => rfl
  | cons x xs ih => simp [List.foldl, ih]

theorem collectVals_global (ty : CtxType) (l : List PermissionContext)
    (acc : Option (List String)) (h : ∃ c ∈ l, c.ctxType = CtxType.global) :
    collectVals ty l acc = none := by
  induction l generalizing acc with
  | nil => rcases h with ⟨c, hc, _⟩; cases hc
  | cons c rest ih =>
    by_cases hc : c.ctxType = CtxType.global
    · simp [collectVals, hc]
    · rcases h with ⟨d, hd, hg⟩
      rcases List.mem_cons.mp hd with rfl | hmem
      · exact absurd hg hc
      · by_cases hty : c.ctxType = ty
        · simp [collectVals, hc, hty, ih _ ⟨d, hmem, hg⟩]
        · simp [collectVals, hc, hty, ih _ ⟨d, hmem, hg⟩]

theorem collectVals_no_global (ty : CtxType) (l : List PermissionContext)
    (acc : Option (List String)) (h : ∀ c ∈ l, c.ctxType ≠ CtxType.global) :
    collectVals ty l acc =
      List.foldl pushVal acc
        ((l.filter (fun c => decide (c.ctxType = ty))).map (fun c => c.value)) := by
  induction l generalizing acc with
  | nil => rfl
  | cons c rest ih =>
    have hc : c.ctxType ≠ CtxType.global := h c (List.mem_cons_self c rest)
    have hrest : ∀ d ∈ rest, d.ctxType ≠ CtxType.global :=
      fun d hd => h d (List.mem_cons_of_mem c hd)
    simp only [collectVals]
    rw [if_neg hc]
    by_cases hty : c.ctxType = ty
    · rw [if_pos hty, ih _ hrest, List.filter_cons, if_pos (by simp [hty])]
      simp [List.foldl]
    · rw [if_neg hty, ih _ hrest, List.filter_cons, if_neg (by simp [hty])]

theorem wipeOnGlobal_global (l : List PermissionContext) (acc : Option (List String))
    (h : ∃ c ∈ l, c.ctxType = CtxType.global) :
    wipeOnGlobal l acc = none := by
  induction l generalizing acc with
  | nil => rcases h with ⟨c, hc, _⟩; cases hc
  | cons c rest ih =>
    by_cases hc : c.ctxType = CtxType.global
    · simp [wipeOnGlobal, hc]
    · rcases h with ⟨d, hd, hg⟩
      rcases List.mem_cons.mp hd with rfl | hmem
      · exact absurd hg hc
      · simp [wipeOnGlobal, hc, ih _ ⟨d, hmem, hg⟩]

theorem wipeOnGlobal_no_global (l : List PermissionContext) (acc : Option (List String))
    (h : ∀ c ∈ l, c.ctxType ≠ CtxType.global) :
    wipeOnGlobal l acc = acc := by
  induction l generalizing acc with
  | nil => rfl
  | cons c rest ih =>
    have hc : c.ctxType ≠ CtxType.global := h c (List.mem_cons_self c rest)
    simp [wipeOnGlobal, hc, ih _ (fun d hd => h d (List.mem_cons_of_mem c hd))]

theorem splitN2Chars_of_no_sep (l : List Char) (h : ('/' : Char) ∉ l) :
    splitN2Chars l = none := by
  induction l with
  | nil => rfl
  | cons c rest ih =>
    have hc : c ≠ ('/' : Char) := fun hc => h (hc ▸ List.mem_cons_self c rest)
    simp [splitN2Chars, hc, ih (fun hm => h (List.mem_cons_of_mem c hm))]

theorem splitN2Chars_append (a b : List Char) (h : ('/' : Char) ∉ a) :
    splitN2Chars (a ++ '/' :: b) = some (a, b) := by
  induction a with
  | nil => simp [splitN2Chars]
  | cons c rest ih =>
    have hc : c ≠ ('/' : Char) := fun hc => h (hc ▸ List.mem_cons_self c rest)
    simp [splitN2Chars, hc, ih (fun hm => h (List.mem_cons_of_mem c hm))]

theorem string_data_append (a b : String) : (a ++ b).data = a.data ++ b.data := rfl

theorem nodeFold_eq (ns : List Node) (v : String) (acc : Option (List String)) :
    ns.foldl (fun ac n => if n.pool = v then pushVal ac n.address else ac) acc =
      List.foldl pushVal acc
        ((ns.filter (fun n => decide (n.pool = v))).map (fun n => n.address)) := by
  induction ns generalizing acc with
  | nil => rfl
  | cons n rest ih =>
    by_cases hp : n.pool = v
    · rw [List.foldl_cons, if_pos hp, ih, List.filter_cons, if_pos (by simp [hp])]
      simp [List.foldl]
    · rw [List.foldl_cons, if_neg hp, ih, List.filter_cons, if_neg (by simp [hp])]

theorem nodeLoop_noprov (w : World) (hnp : w.nodeProvisioner = none) :
    ∀ l : List PermissionContext, nodeLoop w l none none = .ok none := by
  intro l
  induction l with
  | nil => rfl
  | cons c rest ih =>
    by_cases hg : c.ctxType = CtxType.global
    · simp [nodeLoop, hg]
    · by_cases hp : c.ctxType = CtxType.pool
      · simp [nodeLoop, hg, hp, hnp, ih]
      · simp [nodeLoop, hg, hp, ih]

theorem nodeLoop_global (w : World)
    (hok : ∀ np, w.nodeProvisioner = some np → ∃ ns, np.listNodes [] = .ok ns) :
    ∀ (l : List PermissionContext) (acc : Option (List String)) (fetched : Option (List Node)),
      (∃ c ∈ l, c.ctxType = CtxType.global) → nodeLoop w l acc fetched = .ok none := by
  intro l
  induction l with
  | nil => intro acc fetched h; rcases h with ⟨c, hc, _⟩; cases hc
  | cons c rest ih =>
    intro acc fetched h
    by_cases hg : c.ctxType = CtxType.global
    · simp [nodeLoop, hg]
    · have hrest : ∃ d ∈ rest, d.ctxType = CtxType.global := by
        rcases h with ⟨d, hd, hdg⟩
        rcases List.mem_cons.mp hd with rfl | hmem
        · exact absurd hdg hg
        · exact ⟨d, hmem, hdg⟩
      by_cases hp : c.ctxType = CtxType.pool
      · cases hf : fetched with
        | some ns => simp [nodeLoop, hg, hp, ih _ _ hrest]
        | none =>
          cases hw : w.nodeProvisioner with
          | none => simp [nodeLoop, hg, hp, hw, ih _ _ hrest]
          | some np =>
            rcases hok np hw with ⟨ns, hns⟩
            simp [nodeLoop, hg, hp, hw, hns, ih _ _ hrest]
      · simp [nodeLoop, hg, hp, ih _ _ hrest]

theorem nodeLoop_mem (w : World) (np : NodeProvisioner) (hnp : w.nodeProvisioner = some np) :
    ∀ (l : List PermissionContext) (acc : Option (List String)) (fetched : Option (List Node))
      (vs : List String) (X : String),
      (∀ ns, fetched = some ns → np.listNodes [] = .ok ns) →
      nodeLoop w l acc fetched = .ok (some vs) → X ∈ vs →
      (∃ m, acc = some m ∧ X ∈ m) ∨
        ∃ ns, np.listNodes [] = .ok ns ∧
          ∃ n ∈ ns, X = n.address ∧ ∃ c ∈ l, c.ctxType = CtxType.pool ∧ n.pool = c.value := by
  intro l
  induction l with
  | nil =>
    intro acc fetched vs X _ hloop hX
    have : acc = some vs := Except.ok.inj hloop
    exact Or.inl ⟨vs, this, hX⟩
  | cons c rest ih =>
    intro acc fetched vs X hfetch hloop hX
    by_cases hg : c.ctxType = CtxType.global
    · simp only [nodeLoop, if_pos hg] at hloop
      cases Except.ok.inj hloop
    · by_cases hp : c.ctxType = CtxType.pool
      · have hstep : ∀ ns, np.listNodes [] = .ok ns →
            nodeLoop w rest
              (ns.foldl (fun ac n => if n.pool = c.value then pushVal ac n.address else ac) acc)
              (some ns) = .ok (some vs) →
            (∃ m, acc = some m ∧ X ∈ m) ∨
              ∃ ns2, np.listNodes [] = .ok ns2 ∧
                ∃ n ∈ ns2, X = n.address ∧
                  ∃ d ∈ c :: rest, d.ctxType = CtxType.pool ∧ n.pool = d.value := by
          intro ns hns hloop2
          have hrec := ih _ (some ns) vs X (fun ns2 h2 => (Option.some.inj h2) ▸ hns) hloop2 hX
          rcases hrec with ⟨m, hm, hXm⟩ | ⟨ns2, hns2, n, hn, hXn, d, hd, hdp, hdv⟩
          · rw [nodeFold_eq] at hm
            rcases foldl_pushVal_mem _ _ _ _ hm hXm with ⟨m0, hm0, hXm0⟩ | hXaddr
            · exact Or.inl ⟨m0, hm0, hXm0⟩
            · rcases List.mem_map.mp hXaddr with ⟨n, hnmem, hna⟩
              have hnp2 : n.pool = c.value := by
                have := List.of_mem_filter hnmem
                simpa using this
              exact Or.inr ⟨ns, hns, n, List.mem_of_mem_filter hnmem, hna.symm,
                c, List.mem_cons_self c rest, hp, hnp2⟩
          · exact Or.inr ⟨ns2, hns2, n, hn, hXn, d, List.mem_cons_of_mem c hd, hdp, hdv⟩
        cases hf : fetched with
        | some ns =>
          have hns : np.listNodes [] = .ok ns := hfetch ns hf
          rw [hf] at hloop
          simp only [nodeLoop, if_neg hg, if_pos hp] at hloop
          exact hstep ns hns hloop
        | none =>
          rw [hf] at hloop
          cases hns : np.listNodes [] with
          | error e =>
            simp only [nodeLoop, if_neg hg, if_pos hp, hnp, hns] at hloop
            cases hloop
          | ok ns =>
            simp only [nodeLoop, if_neg hg, if_pos hp, hnp, hns] at hloop
            rw [← hns]
            exact hstep ns hns hloop
      · simp only [nodeLoop, if_neg hg, if_neg hp] at hloop
        rcases ih _ fetched vs X hfetch hloop hX with hl | ⟨ns, hns, n, hn, hXn, d, hd, hdp, hdv⟩
        · exact Or.inl hl
        · exact Or.inr ⟨ns, hns, n, hn, hXn, d, List.mem_cons_of_mem c hd, hdp, hdv⟩

theorem containerLoop_mem (w : World) :
    ∀ (apps : List App) (acc : Option (List String)) (vs : List String) (X : String),
      containerLoop w apps acc = .ok (some vs) → X ∈ vs →
      (∃ m, acc = some m ∧ X ∈ m) ∨
        ∃ a ∈ apps, ∃ us, w.units a = .ok us ∧ ∃ u ∈ us, u.id = X := by
  intro apps
  induction apps with
  | nil =>
    intro acc vs X hloop hX
    exact Or.inl ⟨vs, Except.ok.inj hloop, hX⟩
  | cons a rest ih =>
    intro acc vs X hloop hX
    rw [containerLoop] at hloop
    cases hus : w.units a with
    | error e => rw [hus] at hloop; cases hloop
    | ok us =>
      rw [hus] at hloop
      rcases ih _ vs X hloop hX with ⟨m, hm, hXm⟩ | ⟨a2, ha2, us2, hus2, u, hu, hid⟩
      · rw [foldl_push_map] at hm
        rcases foldl_pushVal_mem _ _ _ _ hm hXm with ⟨m0, hm0, hXm0⟩ | hXid
        · exact Or.inl ⟨m0, hm0, hXm0⟩
        · rcases List.mem_map.mp hXid with ⟨u, humem, hui⟩
          exact Or.inr ⟨a, List.mem_cons_self a rest, us, hus, u, humem, hui⟩
      · exact Or.inr ⟨a2, List.mem_cons_of_mem a ha2, us2, hus2, u, hu, hid⟩

theorem allowedTargetsFor_ok (w : World) (t : Token) :
    ∀ l : List TargetType, (∀ k ∈ l, ∃ v, evtPermFilter w k t = .ok v) →
      allowedTargetsFor w t l = .ok (l.filterMap (okScope w t)) := by
  intro l
  induction l with
  | nil => intro _; rfl
  | cons k ks ih =>
    intro h
    rcases h k (List.mem_cons_self k ks) with ⟨v, hv⟩
    have hks := ih (fun k2 hk2 => h k2 (List.mem_cons_of_mem k hk2))
    cases v with
    | none =>
      rw [allowedTargetsFor, hv, hks, List.filterMap_cons]
      simp [okScope, hv]
    | some tf =>
      rw [allowedTargetsFor, hv, hks, List.filterMap_cons]
      simp [okScope, hv]

theorem allowedTargetsFor_err (w : World) (t : Token) :
    ∀ l : List TargetType, (∃ k ∈ l, ∃ e, evtPermFilter w k t = .error e) →
      ∃ e2, allowedTargetsFor w t l = .error e2 ∧
        ∃ k2 ∈ l, evtPermFilter w k2 t = .error e2 := by
  intro l
  induction l with
  | nil => intro h; rcases h with ⟨k, hk, _⟩; cases hk
  | cons k ks ih =>
    intro h
    cases hk : evtPermFilter w k t with
    | error e =>
      exact ⟨e, by rw [allowedTargetsFor, hk], k, List.mem_cons_self k ks, hk⟩
    | ok v =>
      have hrest : ∃ k2 ∈ ks, ∃ e, evtPermFilter w k2 t = .error e := by
        rcases h with ⟨k2, hk2, e, he⟩
        rcases List.mem_cons.mp hk2 with rfl | hmem
        · rw [hk] at he; cases he
        · exact ⟨k2, hmem, e, he⟩
      rcases ih hrest with ⟨e2, h2, k2, hm, he2⟩
      refine ⟨e2, ?_, k2, List.mem_cons_of_mem k hm, he2⟩
      cases v with
      | none => rw [allowedTargetsFor, hk, h2]
      | some tf => rw [allowedTargetsFor, hk, h2]

/-! ### Membership characterizations of the filter values -/

theorem collectVals_mem (ty : CtxType) (l : List PermissionContext) (vs : List String)
    (X : String) (h : collectVals ty l none = some vs) (hX : X ∈ vs) :
    ∃ c ∈ l, c.ctxType = ty ∧ c.value = X := by
  have hng : ∀ c ∈ l, c.ctxType ≠ CtxType.global := by
    intro c hc hgc
    rw [collectVals_global ty l none ⟨c, hc, hgc⟩] at h
    cases h
  rw [collectVals_no_global ty l none hng] at h
  rcases foldl_pushVal_mem _ _ _ _ h hX with ⟨m, hm, _⟩ | hmem
  · cases hm
  · rcases List.mem_map.mp hmem with ⟨c, hcf, hcv⟩
    refine ⟨c, List.mem_of_mem_filter hcf, ?_, hcv⟩
    have := List.of_mem_filter hcf
    simpa using this

theorem foldl_push_field_mem {α : Type} (g : α → String) (l : List α) (vs : List String)
    (X : String) (h : l.foldl (fun ac x => pushVal ac (g x)) none = some vs) (hX : X ∈ vs) :
    ∃ x ∈ l, g x = X := by
  rw [foldl_push_map] at h
  rcases foldl_pushVal_mem _ _ _ _ h hX with ⟨m, hm, _⟩ | hmem
  · cases hm
  · exact List.mem_map.mp hmem

/-! ### Consistency of listing scope and point check

The listing/check consistency property relates the code to its external
collaborators, so it is stated under explicit coherence hypotheses on the
(black-box) permission predicate and on the resource stores: the predicate
grants a scheme when one of the queried contexts is among the actor's
contexts for it (or the actor holds it globally), and the stores resolve the
identities they themselves listed. -/

theorem consistency_team (w : World) (t : Token) (X : String) (f : TargetFilter)
    (vs : List String) (hperm : PermCoherent w) (hst : StoresConsistent w)
    (hf : teamPermChecker.filter w t = .ok (some f)) (hv : f.values = some vs)
    (hX : X ∈ vs) : teamPermChecker.check w t X .read = .ok true := by
  unfold teamPermChecker.filter at hf
  by_cases hlen : (w.contextsForPermission t Scheme.teamReadEvents).length = 0
  · rw [if_pos hlen] at hf
    cases Except.ok.inj hf
  · rw [if_neg hlen] at hf
    have hfe := (Option.some.inj (Except.ok.inj hf)).symm
    rw [hfe] at hv
    simp only at hv
    obtain ⟨c, hcmem, hcty, hcval⟩ := collectVals_mem _ _ _ _ hv hX
    have hc : c = ⟨CtxType.team, X⟩ := by
      cases c
      simp_all
    simp only [teamPermChecker.check, hst.team_ok X]
    rw [hperm.mem_check t Scheme.teamReadEvents c _ hcmem (by rw [hc]; exact List.mem_singleton.mpr rfl)]

theorem consistency_pool (w : World) (t : Token) (X : String) (f : TargetFilter)
    (vs : List String) (hperm : PermCoherent w) (hst : StoresConsistent w)
    (hf : poolPermChecker.filter w t = .ok (some f)) (hv : f.values = some vs)
    (hX : X ∈ vs) : poolPermChecker.check w t X .read = .ok true := by
  unfold poolPermChecker.filter at hf
  by_cases hlen : (w.contextsForPermission t Scheme.poolReadEvents).length = 0
  · rw [if_pos hlen] at hf
    cases Except.ok.inj hf
  · rw [if_neg hlen] at hf
    have hfe := (Option.some.inj (Except.ok.inj hf)).symm
    rw [hfe] at hv
    simp only at hv
    obtain ⟨c, hcmem, hcty, hcval⟩ := collectVals_mem _ _ _ _ hv hX
    have hc : c = ⟨CtxType.pool, X⟩ := by
      cases c
      simp_all
    simp only [poolPermChecker.check, hst.pool_ok X]
    rw [hperm.mem_check t Scheme.poolReadEvents c _ hcmem (by rw [hc]; exact List.mem_singleton.mpr rfl)]

theorem consistency_iaas (w : World) (t : Token) (X : String) (f : TargetFilter)
    (vs : List String) (hperm : PermCoherent w)
    (hf : iaasPermChecker.filter w t = .ok (some f)) (hv : f.values = some vs)
    (hX : X ∈ vs) : iaasPermChecker.check w t X .read = .ok true := by
  unfold iaasPermChecker.filter at hf
  by_cases hlen : (w.contextsForPermission t Scheme.machineReadEvents).length = 0
  · rw [if_pos hlen] at hf
    cases Except.ok.inj hf
  · rw [if_neg hlen] at hf
    have hfe := (Option.some.inj (Except.ok.inj hf)).symm
    rw [hfe] at hv
    simp only at hv
    obtain ⟨c, hcmem, hcty, hcval⟩ := collectVals_mem _ _ _ _ hv hX
    have hc : c = ⟨CtxType.iaas, X⟩ := by
      cases c
      simp_all
    simp only [iaasPermChecker.check]
    rw [hperm.mem_check t Scheme.machineReadEvents c _ hcmem (by rw [hc]; exact List.mem_singleton.mpr rfl)]

theorem consistency_role (w : World) (t : Token) (X : String) (f : TargetFilter)
    (vs : List String) (hf : rolePermChecker.filter w t = .ok (some f))
    (hv : f.values = some vs) (_hX : X ∈ vs) :
    rolePermChecker.check w t X .read = .ok true := by
  unfold rolePermChecker.filter at hf
  by_cases hlen : (w.contextsForPermission t Scheme.roleReadEvents).length = 0
  · rw [if_pos hlen] at hf
    cases Except.ok.inj hf
  · rw [if_neg hlen] at hf
    have hfe := (Option.some.inj (Except.ok.inj hf)).symm
    rw [hfe] at hv
    simp only at hv
    by_cases hgl : ∃ c ∈ w.contextsForPermission t Scheme.roleReadEvents, c.ctxType = CtxType.global
    · rw [wipeOnGlobal_global _ _ hgl] at hv
      cases hv
    · push_neg at hgl
      rw [wipeOnGlobal_no_global _ _ hgl] at hv
      cases hv

theorem string_mk_data (s : String) : String.mk s.data = s := rfl

theorem consistency_app (w : World) (t : Token) (X : String) (f : TargetFilter)
    (vs : List String) (hperm : PermCoherent w) (hst : StoresConsistent w)
    (hf : appPermChecker.filter w t = .ok (some f)) (hv : f.values = some vs)
    (hX : X ∈ vs) : appPermChecker.check w t X .read = .ok true := by
  unfold appPermChecker.filter at hf
  by_cases hlen : (w.contextsForPermission t Scheme.appReadEvents).length = 0
  · rw [if_pos hlen] at hf
    cases Except.ok.inj hf
  · rw [if_neg hlen] at hf
    cases hl : w.appList (w.contextsForPermission t Scheme.appReadEvents) with
    | error e => rw [hl] at hf; cases hf
    | ok apps =>
      simp only [hl] at hf
      by_cases hle : apps.length = 0
      · rw [if_pos hle] at hf
        cases Except.ok.inj hf
      · rw [if_neg hle] at hf
        have hfe := (Option.some.inj (Except.ok.inj hf)).symm
        rw [hfe] at hv
        simp only at hv
        obtain ⟨a, hamem, haname⟩ := foldl_push_field_mem _ _ _ _ hv hX
        obtain ⟨hget, c, hcmem, hcm⟩ := hst.app_ok _ _ _ hl hamem
        rw [haname] at hget
        simp only [appPermChecker.check, hget]
        have hck : w.permCheck t Scheme.appReadEvents
            (ctxList .team a.teams ++ [⟨CtxType.app, a.name⟩, ⟨CtxType.pool, a.pool⟩]) = true := by
          rcases hcm with hgl | ⟨hty, hvm⟩ | ⟨hty, hveq⟩ | ⟨hty, hveq⟩
          · exact hperm.global_check t _ c _ hcmem hgl
          · apply hperm.mem_check t _ c _ hcmem
            apply List.mem_append.mpr
            left
            refine List.mem_map.mpr ⟨c.value, hvm, ?_⟩
            cases c
            simp_all
          · apply hperm.mem_check t _ c _ hcmem
            apply List.mem_append.mpr
            right
            have hc : c = ⟨CtxType.app, a.name⟩ := by cases c; simp_all
            rw [hc]
            simp
          · apply hperm.mem_check t _ c _ hcmem
            apply List.mem_append.mpr
            right
            have hc : c = ⟨CtxType.pool, a.pool⟩ := by cases c; simp_all
            rw [hc]
            simp
        rw [hck]

theorem consistency_service (w : World) (t : Token) (X : String) (f : TargetFilter)
    (vs : List String) (hperm : PermCoherent w) (hst : StoresConsistent w)
    (hf : servicePermChecker.filter w t = .ok (some f)) (hv : f.values = some vs)
    (hX : X ∈ vs) : servicePermChecker.check w t X .read = .ok true := by
  unfold servicePermChecker.filter at hf
  by_cases hlen : (w.contextsForPermission t Scheme.serviceReadEvents).length = 0
  · rw [if_pos hlen] at hf
    cases Except.ok.inj hf
  · rw [if_neg hlen] at hf
    cases hl : w.readableServices t (w.contextsForPermission t Scheme.serviceReadEvents) with
    | error e => rw [hl] at hf; cases hf
    | ok services =>
      simp only [hl] at hf
      by_cases hle : services.length = 0
      · rw [if_pos hle] at hf
        cases Except.ok.inj hf
      · rw [if_neg hle] at hf
        have hfe := (Option.some.inj (Except.ok.inj hf)).symm
        rw [hfe] at hv
        simp only at hv
        obtain ⟨s, hsmem, hsname⟩ := foldl_push_field_mem _ _ _ _ hv hX
        obtain ⟨hget, c, hcmem, hcm⟩ := hst.service_ok _ _ _ _ hl hsmem
        rw [hsname] at hget
        simp only [servicePermChecker.check, hget]
        have hck : w.permCheck t Scheme.serviceReadEvents
            (ctxList .team s.ownerTeams ++ [⟨CtxType.service, s.name⟩]) = true := by
          rcases hcm with hgl | ⟨hty, hvm⟩ | ⟨hty, hveq⟩
          · exact hperm.global_check t _ c _ hcmem hgl
          · apply hperm.mem_check t _ c _ hcmem
            apply List.mem_append.mpr
            left
            refine List.mem_map.mpr ⟨c.value, hvm, ?_⟩
            cases c
            simp_all
          · apply hperm.mem_check t _ c _ hcmem
            apply List.mem_append.mpr
            right
            have hc : c = ⟨CtxType.service, s.name⟩ := by cases c; simp_all
            rw [hc]
            simp
        rw [hck]

theorem consistency_instance (w : World) (t : Token) (X : String) (f : TargetFilter)
    (vs : List String) (hperm : PermCoherent w) (hst : StoresConsistent w)
    (hf : serviceInstancePermChecker.filter w t = .ok (some f)) (hv : f.values = some vs)
    (hX : X ∈ vs) : serviceInstancePermChecker.check w t X .read = .ok true := by
  unfold serviceInstancePermChecker.filter at hf
  by_cases hlen : (w.contextsForPermission t Scheme.serviceInstanceReadEvents).length = 0
  · rw [if_pos hlen] at hf
    cases Except.ok.inj hf
  · rw [if_neg hlen] at hf
    cases hl : w.readableInstances t (w.contextsForPermission t Scheme.serviceInstanceReadEvents) with
    | error e => rw [hl] at hf; cases hf
    | ok instances =>
      simp only [hl] at hf
      by_cases hle : instances.length = 0
      · rw [if_pos hle] at hf
        cases Except.ok.inj hf
      · rw [if_neg hle] at hf
        have hfe := (Option.some.inj (Except.ok.inj hf)).symm
        rw [hfe] at hv
        simp only at hv
        obtain ⟨si, hsmem, hsname⟩ := foldl_push_field_mem _ _ _ _ hv hX
        obtain ⟨hget, hnosep, c, hcmem, hcm⟩ := hst.instance_ok _ _ _ _ hl hsmem
        have hdata : X.data = si.serviceName.data ++ '/' :: si.name.data := by
          rw [← hsname]
          simp [serviceIntancePermName, string_data_append]
        have hsplit : splitN2Chars X.data = some (si.serviceName.data, si.name.data) := by
          rw [hdata]
          exact splitN2Chars_append _ _ hnosep
        simp only [serviceInstancePermChecker.check, hsplit, string_mk_data, hget]
        have hck : w.permCheck t Scheme.serviceInstanceReadEvents
            (ctxList .team si.teams ++ [⟨CtxType.serviceInstance, X⟩]) = true := by
          rcases hcm with hgl | ⟨hty, hvm⟩ | ⟨hty, hveq⟩
          · exact hperm.global_check t _ c _ hcmem hgl
          · apply hperm.mem_check t _ c _ hcmem
            apply List.mem_append.mpr
            left
            refine List.mem_map.mpr ⟨c.value, hvm, ?_⟩
            cases c
            simp_all
          · apply hperm.mem_check t _ c _ hcmem
            apply List.mem_append.mpr
            right
            have hc : c = ⟨CtxType.serviceInstance, X⟩ := by
              rw [← hsname]
              cases c
              simp_all
            rw [hc]
            simp
        rw [hck]

theorem consistency_container (w : World) (t : Token) (X : String) (f : TargetFilter)
    (vs : List String) (hperm : PermCoherent w) (hst : StoresConsistent w)
    (hf : containerPermChecker.filter w t = .ok (some f)) (hv : f.values = some vs)
    (hX : X ∈ vs) : containerPermChecker.check w t X .read = .ok true := by
  unfold containerPermChecker.filter at hf
  by_cases hlen : (w.contextsForPermission t Scheme.appReadEvents).length = 0
  · rw [if_pos hlen] at hf
    cases Except.ok.inj hf
  · rw [if_neg hlen] at hf
    cases hl : w.appList (w.contextsForPermission t Scheme.appReadEvents) with
    | error e => rw [hl] at hf; cases hf
    | ok apps =>
      simp only [hl] at hf
      by_cases hle : apps.length = 0
      · rw [if_pos hle] at hf
        cases Except.ok.inj hf
      · rw [if_neg hle] at hf
        cases hcl : containerLoop w apps (some []) with
        | error e => rw [hcl] at hf; cases hf
        | ok vals =>
          simp only [hcl] at hf
          have hfe := (Option.some.inj (Except.ok.inj hf)).symm
          rw [hfe] at hv
          simp only at hv
          rw [hv] at hcl
          rcases containerLoop_mem w apps (some []) vs X hcl hX with ⟨m, hm, hXm⟩ | ⟨a, hamem, us, hus, u, humem, hid⟩
          · cases Option.some.inj hm
            cases hXm
          · have hget := hst.unit_ok _ _ _ hl hamem _ _ hus humem
            rw [hid] at hget
            obtain ⟨_, c, hcmem, hcm⟩ := hst.app_ok _ _ _ hl hamem
            simp only [containerPermChecker.check, hget]
            have hck : w.permCheck t Scheme.appReadEvents
                (ctxList .team a.teams ++ [⟨CtxType.app, a.name⟩, ⟨CtxType.pool, a.pool⟩]) = true := by
              rcases hcm with hgl | ⟨hty, hvm⟩ | ⟨hty, hveq⟩ | ⟨hty, hveq⟩
              · exact hperm.global_check t _ c _ hcmem hgl
              · apply hperm.mem_check t _ c _ hcmem
                apply List.mem_append.mpr
                left
                refine List.mem_map.mpr ⟨c.value, hvm, ?_⟩
                cases c
                simp_all
              · apply hperm.mem_check t _ c _ hcmem
                apply List.mem_append.mpr
                right
                have hc : c = ⟨CtxType.app, a.name⟩ := by cases c; simp_all
                rw [hc]
                simp
              · apply hperm.mem_check t _ c _ hcmem
                apply List.mem_append.mpr
                right
                have hc : c = ⟨CtxType.pool, a.pool⟩ := by cases c; simp_all
                rw [hc]
                simp
            rw [hck]

theorem consistency_node (w : World) (t : Token) (X : String) (f : TargetFilter)
    (vs : List String) (hperm : PermCoherent w) (hst : StoresConsistent w)
    (hf : nodePermChecker.filter w t = .ok (some f)) (hv : f.values = some vs)
    (hX : X ∈ vs) : nodePermChecker.check w t X .read = .ok true := by
  unfold nodePermChecker.filter at hf
  by_cases hlen : (w.contextsForPermission t Scheme.poolReadEvents).length = 0
  · rw [if_pos hlen] at hf
    cases Except.ok.inj hf
  · rw [if_neg hlen] at hf
    cases hnl : nodeLoop w (w.contextsForPermission t Scheme.poolReadEvents) none none with
    | error e => rw [hnl] at hf; cases hf
    | ok vals =>
      simp only [hnl] at hf
      have hfe := (Option.some.inj (Except.ok.inj hf)).symm
      rw [hfe] at hv
      simp only at hv
      rw [hv] at hnl
      cases hnp : w.nodeProvisioner with
      | none =>
        rw [nodeLoop_noprov w hnp] at hnl
        cases Except.ok.inj hnl
      | some np =>
        rcases nodeLoop_mem w np hnp _ none none vs X (fun ns h2 => by cases h2) hnl hX with
          ⟨m, hm, _⟩ | ⟨ns, hns, n, hnmem, hXaddr, c, hcmem, hcty, hcpool⟩
        · cases hm
        · have hpoint := hst.node_ok np ns n hnp hns hnmem
          rw [← hXaddr] at hpoint
          simp only [nodePermChecker.check, hnp, hpoint]
          have hck : w.permCheck t Scheme.poolReadEvents [⟨CtxType.pool, n.pool⟩] = true := by
            apply hperm.mem_check t _ c _ hcmem
            have hc : c = ⟨CtxType.pool, n.pool⟩ := by
              cases c
              simp_all
            rw [hc]
            exact List.mem_singleton.mpr rfl
          rw [hck]

/-! ### Claim C1: listing/check consistency -/

/-- Counterexample to C1 as stated: for the User kind, the listing filter of
an actor with no permissions at all is restricted to the actor's own user
name, yet the Read check on a User-targeted event with that very value
denies (the check requires a global user-read-events grant). -/
theorem claimC1_cex :
    evtPermFilter noPermWorld TargetType.user aliceToken =
      .ok (some ⟨TargetType.user, some ["alice"]⟩) ∧
    evtPermCheck noPermWorld TargetType.user aliceToken "alice" .read = .ok false :=
  ⟨rfl, rfl⟩

/-- C1 (amended): for every target kind other than User, if an identity X
appears in the restricted listing filter the kind's plugin produces for an
actor, then that plugin's Read check on an event targeting X returns true —
provided the permission predicate is coherent with the actor's contexts and
the resource stores resolve the identities they themselves listed. -/
theorem claimC1 (w : World) (t : Token) (K : TargetType) (X : String)
    (f : TargetFilter) (vs : List String) (hK : K ≠ TargetType.user)
    (hperm : PermCoherent w) (hst : StoresConsistent w)
    (hf : evtPermFilter w K t = .ok (some f)) (hv : f.values = some vs)
    (hX : X ∈ vs) : evtPermCheck w K t X .read = .ok true := by
  cases K with
  | app => exact consistency_app w t X f vs hperm hst hf hv hX
  | team => exact consistency_team w t X f vs hperm hst hf hv hX
  | service => exact consistency_service w t X f vs hperm hst hf hv hX
  | serviceInstance => exact consistency_instance w t X f vs hperm hst hf hv hX
  | pool => exact consistency_pool w t X f vs hperm hst hf hv hX
  | user => exact absurd rfl hK
  | container => exact consistency_container w t X f vs hperm hst hf hv hX
  | node => exact consistency_node w t X f vs hperm hst hf hv hX
  | iaas => exact consistency_iaas w t X f vs hperm hf hv hX
  | role => exact consistency_role w t X f vs hf hv hX

theorem claimC1_witness :
    evtPermCheck cohWorld TargetType.team bobToken "alpha" .read = .ok true := by
  apply claimC1 cohWorld bobToken TargetType.team "alpha"
    ⟨TargetType.team, some ["alpha"]⟩ ["alpha"] (by decide)
  · exact
      { mem_check := by
          intro t s c ctxs hc hmem
          exact decide_eq_true ⟨c, hc, Or.inl hmem⟩
        global_check := by
          intro t s c ctxs hc hg
          exact decide_eq_true ⟨c, hc, Or.inr hg⟩ }
  · exact
      { team_ok := fun v => rfl
        pool_ok := fun v => rfl
        app_ok := by
          intro ctxs apps a hl ha
          cases Except.ok.inj hl
          cases ha
        service_ok := by
          intro t ctxs ss s hl hs
          cases Except.ok.inj hl
          cases hs
        instance_ok := by
          intro t ctxs sis si hl hs
          cases Except.ok.inj hl
          cases hs
        unit_ok := by
          intro ctxs apps a hl ha
          cases Except.ok.inj hl
          cases ha
        node_ok := by
          intro np ns n h
          cases h }
  · rfl
  · rfl
  · exact List.mem_singleton.mpr rfl

/-! ### Claims C2, C3, C7: per-kind filter shapes -/

theorem collect_filter_some (ty : CtxType) (ctxs : List PermissionContext)
    (hng : ∀ c ∈ ctxs, c.ctxType ≠ CtxType.global)
    (hm : (ctxs.filter (fun c => decide (c.ctxType = ty))).map (fun c => c.value) ≠ []) :
    collectVals ty ctxs none =
      some ((ctxs.filter (fun c => decide (c.ctxType = ty))).map (fun c => c.value)) := by
  rw [collectVals_no_global _ _ _ hng]
  exact foldl_pushVal_none_of_ne _ hm

/-- Counterexample to C2 as stated: with a Pool context, no Global context
and a provisioner that does not support node listing, the Node filter is not
absent — it returns a present entry with a nil value list (an unrestricted
scope for the Node kind). -/
theorem claimC2_cex :
    evtPermFilter poolCtxWorld TargetType.node aliceToken =
      .ok (some ⟨TargetType.node, none⟩) ∧
    evtPermFilter poolCtxWorld TargetType.node aliceToken ≠ .ok none :=
  ⟨rfl, by decide⟩

/-- C2 (amended): for every actor with non-empty pool-read-events contexts,
at least one Pool context and no Global context, if the provisioner does not
support node listing then the Node filter yields a present scope with no
value restriction (an unrestricted Node entry), rather than an absent one. -/
theorem claimC2 (w : World) (t : Token) (hnp : w.nodeProvisioner = none)
    (hne : w.contextsForPermission t Scheme.poolReadEvents ≠ [])
    (_hpool : ∃ c ∈ w.contextsForPermission t Scheme.poolReadEvents,
      c.ctxType = CtxType.pool)
    (_hng : ∀ c ∈ w.contextsForPermission t Scheme.poolReadEvents,
      c.ctxType ≠ CtxType.global) :
    evtPermFilter w TargetType.node t = .ok (some ⟨TargetType.node, none⟩) := by
  have hlen : ¬(w.contextsForPermission t Scheme.poolReadEvents).length = 0 :=
    fun h => hne (List.length_eq_zero.mp h)
  simp only [evtPermFilter, nodePermChecker.filter, if_neg hlen,
    nodeLoop_noprov w hnp]

theorem claimC2_witness :
    evtPermFilter poolCtxWorld TargetType.node aliceToken =
      .ok (some ⟨TargetType.node, none⟩) :=
  claimC2 poolCtxWorld aliceToken rfl (by decide)
    ⟨⟨CtxType.pool, "p1"⟩, by decide⟩ (by decide)

/-- Counterexample to C3 as stated: the Role kind is claimed to restrict to
the values of the actor's Role contexts, but its filter never collects any
value — with the single Role context "r1" it returns a nil value list
(unrestricted), not the restricted list ["r1"]. -/
theorem claimC3_cex :
    evtPermFilter roleCtxWorld TargetType.role aliceToken =
      .ok (some ⟨TargetType.role, none⟩) ∧
    evtPermFilter roleCtxWorld TargetType.role aliceToken ≠
      .ok (some ⟨TargetType.role, some ["r1"]⟩) :=
  ⟨rfl, by decide⟩

/-- C3 (amended): for the kinds Team, Pool and IaaS, and every actor holding
a non-empty set of applicable contexts, none Global and at least one
matching the kind's own scope type, the filter returns a scope restricted to
exactly the matching contexts' values.  (Role collects no values at all and
User returns the self-scope, so those two kinds are excluded.) -/
theorem claimC3 (w : World) (t : Token) (K : TargetType)
    (hK : K = TargetType.team ∨ K = TargetType.pool ∨ K = TargetType.iaas)
    (hne : w.contextsForPermission t (readSchemeOf K) ≠ [])
    (hng : ∀ c ∈ w.contextsForPermission t (readSchemeOf K),
      c.ctxType ≠ CtxType.global)
    (hm : matchingVals K (w.contextsForPermission t (readSchemeOf K)) ≠ []) :
    evtPermFilter w K t =
      .ok (some ⟨K, some (matchingVals K (w.contextsForPermission t (readSchemeOf K)))⟩) := by
  have hlen : ¬(w.contextsForPermission t (readSchemeOf K)).length = 0 :=
    fun h => hne (List.length_eq_zero.mp h)
  rcases hK with rfl | rfl | rfl
  · simp only [readSchemeOf] at hlen hng hm ⊢
    simp only [evtPermFilter, teamPermChecker.filter, if_neg hlen,
      collect_filter_some CtxType.team _ hng hm]
    rfl
  · simp only [readSchemeOf] at hlen hng hm ⊢
    simp only [evtPermFilter, poolPermChecker.filter, if_neg hlen,
      collect_filter_some CtxType.pool _ hng hm]
    rfl
  · simp only [readSchemeOf] at hlen hng hm ⊢
    simp only [evtPermFilter, iaasPermChecker.filter, if_neg hlen,
      collect_filter_some CtxType.iaas _ hng hm]
    rfl

theorem claimC3_witness :
    evtPermFilter teamCtxWorld TargetType.team aliceToken =
      .ok (some ⟨TargetType.team, some ["alpha"]⟩) :=
  claimC3 teamCtxWorld aliceToken TargetType.team (Or.inl rfl)
    (by decide) (by decide) (by decide)

/-- Counterexample to C7 as stated: the App kind is governed by the
app-read-events scheme, yet with a Global context and an empty app store its
filter returns no entry at all (absent), not an unrestricted one; the
resolved-identity kinds enumerate the store even under a Global grant. -/
theorem claimC7_cex :
    evtPermFilter globalAppWorld TargetType.app aliceToken = .ok none ∧
    evtPermFilter globalAppWorld TargetType.app aliceToken ≠
      .ok (some ⟨TargetType.app, none⟩) :=
  ⟨rfl, by decide⟩

/-- C7 (amended): for the direct-context kinds (Team, Pool, Role, User,
IaaS) and Node, an actor holding a Global context for the kind's scheme gets
an unrestricted scope (an entry with no value restriction) no matter which
narrower contexts also exist; for Node this additionally assumes no
node-registry lookup triggered by an earlier Pool context fails.  The
resolved-identity kinds (App, Service, ServiceInstance, Container) instead
enumerate their stores even under a Global grant. -/
theorem claimC7 (w : World) (t : Token) (K : TargetType)
    (hK : K = TargetType.team ∨ K = TargetType.pool ∨ K = TargetType.role ∨
      K = TargetType.user ∨ K = TargetType.iaas ∨ K = TargetType.node)
    (hg : ∃ c ∈ w.contextsForPermission t (readSchemeOf K),
      c.ctxType = CtxType.global)
    (hnode : ∀ np, w.nodeProvisioner = some np → ∃ ns, np.listNodes [] = .ok ns) :
    evtPermFilter w K t = .ok (some ⟨K, none⟩) := by
  have hne : w.contextsForPermission t (readSchemeOf K) ≠ [] := by
    rcases hg with ⟨c, hc, _⟩
    exact List.ne_nil_of_mem hc
  have hlen : ¬(w.contextsForPermission t (readSchemeOf K)).length = 0 :=
    fun h => hne (List.length_eq_zero.mp h)
  rcases hK with rfl | rfl | rfl | rfl | rfl | rfl
  · simp only [readSchemeOf] at hlen hg
    simp only [evtPermFilter, teamPermChecker.filter, if_neg hlen,
      collectVals_global CtxType.team _ none hg]
  · simp only [readSchemeOf] at hlen hg
    simp only [evtPermFilter, poolPermChecker.filter, if_neg hlen,
      collectVals_global CtxType.pool _ none hg]
  · simp only [readSchemeOf] at hlen hg
    simp only [evtPermFilter, rolePermChecker.filter, if_neg hlen,
      wipeOnGlobal_global _ _ hg]
  · simp only [readSchemeOf] at hlen hg
    simp only [evtPermFilter, userPermChecker.filter, if_neg hlen,
      wipeOnGlobal_global _ _ hg]
  · simp only [readSchemeOf] at hlen hg
    simp only [evtPermFilter, iaasPermChecker.filter, if_neg hlen,
      collectVals_global CtxType.iaas _ none hg]
  · simp only [readSchemeOf] at hlen hg
    simp only [evtPermFilter, nodePermChecker.filter, if_neg hlen,
      nodeLoop_global w hnode _ none none hg]

theorem claimC7_witness :
    evtPermFilter globalTeamWorld TargetType.team aliceToken =
      .ok (some ⟨TargetType.team, none⟩) :=
  claimC7 globalTeamWorld aliceToken TargetType.team (Or.inl rfl)
    ⟨⟨CtxType.global, ""⟩, by decide⟩ (fun np h => by cases h)

/-! ### Claim C8: zero applicable contexts -/

/-- C8: with zero applicable contexts, every kind's filter is absent, except
User, which is restricted to exactly the actor's own user name. -/
theorem claimC8 (w : World) (t : Token) :
    (∀ K, K ≠ TargetType.user → w.contextsForPermission t (readSchemeOf K) = [] →
      evtPermFilter w K t = .ok none) ∧
    (w.contextsForPermission t Scheme.userReadEvents = [] →
      evtPermFilter w TargetType.user t =
        .ok (some ⟨TargetType.user, some [t.name]⟩)) := by
  constructor
  · intro K hK h
    cases K with
    | app =>
      simp only [readSchemeOf] at h
      simp [evtPermFilter, appPermChecker.filter, h]
    | team =>
      simp only [readSchemeOf] at h
      simp [evtPermFilter, teamPermChecker.filter, h]
    | service =>
      simp only [readSchemeOf] at h
      simp [evtPermFilter, servicePermChecker.filter, h]
    | serviceInstance =>
      simp only [readSchemeOf] at h
      simp [evtPermFilter, serviceInstancePermChecker.filter, h]
    | pool =>
      simp only [readSchemeOf] at h
      simp [evtPermFilter, poolPermChecker.filter, h]
    | user => exact absurd rfl hK
    | container =>
      simp only [readSchemeOf] at h
      simp [evtPermFilter, containerPermChecker.filter, h]
    | node =>
      simp only [readSchemeOf] at h
      simp [evtPermFilter, nodePermChecker.filter, h]
    | iaas =>
      simp only [readSchemeOf] at h
      simp [evtPermFilter, iaasPermChecker.filter, h]
    | role =>
      simp only [readSchemeOf] at h
      simp [evtPermFilter, rolePermChecker.filter, h]
  · intro h
    simp [evtPermFilter, userPermChecker.filter, h]

theorem claimC8_witness :
    evtPermFilter noPermWorld TargetType.team aliceToken = .ok none ∧
    evtPermFilter noPermWorld TargetType.user aliceToken =
      .ok (some ⟨TargetType.user, some ["alice"]⟩) :=
  ⟨(claimC8 noPermWorld aliceToken).1 TargetType.team (by decide) rfl,
   (claimC8 noPermWorld aliceToken).2 rfl⟩

/-! ### Claim C9: malformed composite identity for ServiceInstance -/

/-- C9: a ServiceInstance check on a target value without a "/" separator
denies with no error, for every mode and every world — in particular it
never consults the service-instance store. -/
theorem claimC9 (w : World) (t : Token) (value : String) (kind : CheckKind)
    (h : ('/' : Char) ∉ value.data) :
    evtPermCheck w TargetType.serviceInstance t value kind = .ok false := by
  simp only [evtPermCheck, serviceInstancePermChecker.check,
    splitN2Chars_of_no_sep value.data h]

theorem claimC9_witness :
    evtPermCheck noPermWorld TargetType.serviceInstance aliceToken "abc" .read =
      .ok false :=
  claimC9 noPermWorld aliceToken "abc" .read (by decide)

/-! ### Claim C10: the allowed targets depend only on the token -/

/-- C10: the allowed-target component of `filterForPerms` is the same for
any two caller-supplied input filters (including ones that already carry
allowed-target entries): the permission-derived set unconditionally replaces
whatever the input held. -/
theorem claimC10 (w : World) (t : Token) (f1 f2 : Option EventFilter) :
    (filterForPerms w t f1).map (fun f => f.allowedTargets) =
      (filterForPerms w t f2).map (fun f => f.allowedTargets) := by
  cases h : allowedTargetsFor w t targetTypeOrder with
  | error e => simp [filterForPerms, h]
  | ok ats => simp [filterForPerms, h, Except.map]

/-! ### Claim C5: fail-closed listing-filter construction -/

/-- C5: if every plugin resolves its scope, the combined filter's allowed
targets are exactly the non-absent per-kind scopes (and every other filter
field is preserved); if any plugin errs, the whole operation returns some
erring plugin's error and no filter. -/
theorem claimC5 (w : World) (t : Token) (fOpt : Option EventFilter) :
    ((∀ k ∈ targetTypeOrder, ∃ v, evtPermFilter w k t = .ok v) →
      filterForPerms w t fOpt =
        .ok { fOpt.getD { allowedTargets := [], other := "" } with
              allowedTargets := targetTypeOrder.filterMap (okScope w t) }) ∧
    (∀ k e, k ∈ targetTypeOrder → evtPermFilter w k t = .error e →
      ∃ e2, filterForPerms w t fOpt = .error e2 ∧
        ∃ k2 ∈ targetTypeOrder, evtPermFilter w k2 t = .error e2) := by
  constructor
  · intro h
    simp [filterForPerms, allowedTargetsFor_ok w t targetTypeOrder h]
  · intro k e hk he
    rcases allowedTargetsFor_err w t targetTypeOrder ⟨k, hk, e, he⟩ with
      ⟨e2, h2, k2, hm, he2⟩
    exact ⟨e2, by simp [filterForPerms, h2], k2, hm, he2⟩

theorem claimC5_witness :
    filterForPerms noPermWorld aliceToken none =
      .ok { allowedTargets := [⟨TargetType.user, some ["alice"]⟩], other := "" } :=
  (claimC5 noPermWorld aliceToken none).1 (by
    intro k hk
    fin_cases hk <;> exact ⟨_, rfl⟩)

/-! ### Claim C4: single-event fetch outcomes -/

/-- Counterexample to C4 as stated: an id that is not a valid ObjectId
yields the 400 bad-request outcome, not the claimed 404 not-found one. -/
theorem claimC4_cex :
    eventInfo noPermWorld aliceToken "zz" =
      .httpErr 400 "uuid parameter is not ObjectId: zz" ∧
    isNotFoundOutcome (eventInfo noPermWorld aliceToken "zz") = false :=
  ⟨rfl, rfl⟩

/-- C4 (amended): fetching one event returns 400 (bad request) when the id
is not a valid ObjectId, 404 when a valid id matches no stored event, 401
when the access check denies, and 200 with the event otherwise. -/
theorem claimC4 (w : World) (t : Token) (uuid : String) :
    (isObjectIdHex uuid = false →
      eventInfo w t uuid = .httpErr 400 ("uuid parameter is not ObjectId: " ++ uuid)) ∧
    (∀ e, isObjectIdHex uuid = true → w.getByID uuid = .error e →
      eventInfo w t uuid = .httpErr 404 e) ∧
    (∀ ev, isObjectIdHex uuid = true → w.getByID uuid = .ok ev →
      evtPermCheck w ev.target.ttype t ev.target.value .read = .ok false →
      eventInfo w t uuid = errUnauthorized) ∧
    (∀ ev, isObjectIdHex uuid = true → w.getByID uuid = .ok ev →
      evtPermCheck w ev.target.ttype t ev.target.value .read = .ok true →
      eventInfo w t uuid = .ok 200) := by
  refine ⟨?_, ?_, ?_, ?_⟩
  · intro h
    simp [eventInfo, h]
  · intro e hid hge
    simp [eventInfo, hid, hge]
  · intro ev hid hge hck
    simp [eventInfo, hid, hge, hck]
  · intro ev hid hge hck
    simp [eventInfo, hid, hge, hck]

theorem claimC4_witness :
    eventInfo noPermWorld aliceToken validId = .httpErr 404 "event not found" :=
  (claimC4 noPermWorld aliceToken validId).2.1 "event not found" (by decide) rfl

/-! ### Claim C6: cancellation check order -/

/-- C6: with a well-formed id, cancellation checks in order — absent event
gives 404; empty reason gives 400 before any permission check (the outcome
holds for every permission predicate); denial gives 401 with no transition
requested (the outcome holds for every transition behavior); after all three
pass, a not-cancelable transition surfaces as 400 and success as 204. -/
theorem claimC6 (w : World) (t : Token) (uuid : String) (reason : String)
    (hid : isObjectIdHex uuid = true) :
    (∀ m, w.getByID uuid = .error m →
      eventCancel w t uuid reason = .httpErr 404 m) ∧
    (∀ ev, w.getByID uuid = .ok ev → reason = "" →
      eventCancel w t uuid reason = .httpErr 400 "reason is mandatory") ∧
    (∀ ev, w.getByID uuid = .ok ev → reason ≠ "" →
      evtPermCheck w ev.target.ttype t ev.target.value .update = .ok false →
      eventCancel w t uuid reason = errUnauthorized) ∧
    (∀ ev, w.getByID uuid = .ok ev → reason ≠ "" →
      evtPermCheck w ev.target.ttype t ev.target.value .update = .ok true →
      w.tryCancel ev reason t.name = some CancelErr.notCancelable →
      eventCancel w t uuid reason = .httpErr 400 "event is not cancelable") ∧
    (∀ ev, w.getByID uuid = .ok ev → reason ≠ "" →
      evtPermCheck w ev.target.ttype t ev.target.value .update = .ok true →
      w.tryCancel ev reason t.name = none →
      eventCancel w t uuid reason = .ok 204) := by
  refine ⟨?_, ?_, ?_, ?_, ?_⟩
  · intro m hge
    simp [eventCancel, hid, hge]
  · intro ev hge hr
    simp [eventCancel, hid, hge, hr]
  · intro ev hge hr hck
    simp [eventCancel, hid, hge, hr, hck]
  · intro ev hge hr hck htc
    simp [eventCancel, hid, hge, hr, hck, htc]
  · intro ev hge hr hck htc
    simp [eventCancel, hid, hge, hr, hck, htc]

theorem claimC6_witness :
    eventCancel eventWorld aliceToken validId "" = .httpErr 400 "reason is mandatory" :=
  (claimC6 eventWorld aliceToken validId "" (by decide)).2.1 storedEvent rfl rfl
